import Mathlib

/-!
Verification of the ScratchIt scratch-off engine (`src/index.js`)

A shallow embedding of the core of the ScratchIt widget: the stroke
interpolator (`addPoint`), the reveal detector (`testRevealed`), the
viewport transform (`onResize`), the construction-time threshold clamp,
the two-image load join (`onCanvasLoaded`), the pointer handlers
(`onPointerDown` / `onPointerUp` / `onPointerMove`) and the
destination-out compositing performed by the render loop (`draw`).

Conventions of the embedding:
* JavaScript numbers are idealized as exact rationals (`ℚ`); the
  Euclidean distance `Math.sqrt(dx*dx + dy*dy)` is the real square root
  of a rational, and where the source branches on it or takes
  `Math.ceil` of it we use equivalent exact rational computations,
  proved equal to the `Real.sqrt` formulations below
  (`sqrtCeilDiv_eq_ceil_sqrt_div`, `sq_lt_iff_lt_sqrt`).
* `Math.round` rounds half-up, i.e. `Math.round(x) = ⌊x + 1/2⌋`.
* DOM side effects (cancelling events, invoking user callbacks,
  reading the pixel buffer, logging) are recorded as explicit action
  traces so that order and multiplicity can be stated.
-/

namespace ScratchIt

/-- A coordinate pair with exact rational coordinates, the idealization
of a JavaScript `{x, y}` object holding numbers. -/
structure Point where
  x : ℚ
  y : ℚ
  deriving DecidableEq, Repr

/-- A coordinate pair with integer coordinates: the points stored in
`paintQueue` and `lastPoint` after `Math.round`. -/
structure IPoint where
  x : ℤ
  y : ℤ
  deriving DecidableEq, Repr

/-- JavaScript `Math.round`: rounds to the nearest integer, halves
rounding up (`Math.round(x) = ⌊x + 1/2⌋`). -/
def jsRound (q : ℚ) : ℤ := ⌊q + 1/2⌋

/-- Least natural number `n` with `c ≤ n ^ 2`, i.e. `⌈√c⌉` on `ℕ`. -/
def natCeilSqrt (c : ℕ) : ℕ :=
  if Nat.sqrt c * Nat.sqrt c = c then Nat.sqrt c else Nat.sqrt c + 1

/-- `⌈√t⌉` of a rational `t` (0 for negative `t`), computed exactly. -/
def ratCeilSqrt (t : ℚ) : ℕ := natCeilSqrt (⌈t⌉).toNat

/-- `⌈√s / m⌉` for rationals `s ≥ 0`, `m > 0`, computed exactly: the
value of `Math.ceil(Math.sqrt(s) / m)` in the source. -/
def sqrtCeilDiv (s m : ℚ) : ℕ := ratCeilSqrt (s / m ^ 2)

theorem natCeilSqrt_spec (c : ℕ) : c ≤ natCeilSqrt c ^ 2 := by
  unfold natCeilSqrt
  split
  · rename_i h
    simpa [pow_two] using h.ge
  · exact (Nat.lt_succ_sqrt' c).le

theorem natCeilSqrt_le {c k : ℕ} (h : c ≤ k ^ 2) : natCeilSqrt c ≤ k := by
  unfold natCeilSqrt
  have hs : Nat.sqrt c ≤ k := by
    have h1 : Nat.sqrt c ≤ Nat.sqrt (k ^ 2) := Nat.sqrt_le_sqrt h
    simpa [Nat.sqrt_eq'] using h1
  split
  · exact hs
  · rename_i hne
    rcases Nat.lt_or_ge (Nat.sqrt c) k with hlt | hge
    · omega
    · exfalso
      have hks : k = Nat.sqrt c := le_antisymm hge hs
      subst hks
      have h1 : Nat.sqrt c * Nat.sqrt c ≤ c := Nat.sqrt_le c
      have h2 : c ≤ Nat.sqrt c * Nat.sqrt c := by
        calc c ≤ Nat.sqrt c ^ 2 := h
          _ = Nat.sqrt c * Nat.sqrt c := by ring
      exact hne (le_antisymm h1 h2)

theorem ratCeilSqrt_spec (t : ℚ) : t ≤ (ratCeilSqrt t : ℚ) ^ 2 := by
  have h3 : t ≤ ((⌈t⌉).toNat : ℚ) := by
    have h0 := Int.self_le_toNat ⌈t⌉
    calc t ≤ (⌈t⌉ : ℚ) := Int.le_ceil t
      _ ≤ _ := by exact_mod_cast h0
  have h4 : ((⌈t⌉).toNat : ℚ) ≤ ((natCeilSqrt (⌈t⌉).toNat : ℕ) : ℚ) ^ 2 := by
    exact_mod_cast natCeilSqrt_spec (⌈t⌉).toNat
  exact h3.trans h4

theorem ratCeilSqrt_le {t : ℚ} {k : ℕ} (h : t ≤ (k : ℚ) ^ 2) : ratCeilSqrt t ≤ k := by
  apply natCeilSqrt_le
  have h1 : ⌈t⌉ ≤ ((k ^ 2 : ℕ) : ℤ) := by
    apply Int.ceil_le.mpr
    exact_mod_cast h
  have h2 : (⌈t⌉).toNat ≤ k ^ 2 := by
    exact_mod_cast Int.toNat_le.mpr h1
  exact h2

/-- Branching on `minPointDist < Math.sqrt s` is the same as branching
on `minPointDist ^ 2 < s` when `minPointDist ≥ 0`: justifies the exact
guard used in the embedding of `addPoint`. -/
theorem sq_lt_iff_lt_sqrt {m s : ℚ} (hm : 0 ≤ m) :
    m ^ 2 < s ↔ (m : ℝ) < Real.sqrt (s : ℝ) := by
  rw [Real.lt_sqrt (show (0:ℝ) ≤ (m:ℝ) by exact_mod_cast hm)]
  exact_mod_cast Iff.rfl

/-- `sqrtCeilDiv s m` is exactly `⌈Real.sqrt s / m⌉`: justifies the
exact computation of `numSegments = Math.ceil(dist / minPointDist)`. -/
theorem sqrtCeilDiv_eq_ceil_sqrt_div {s m : ℚ} (hs : 0 ≤ s) (hm : 0 < m) :
    (sqrtCeilDiv s m : ℤ) = ⌈Real.sqrt (s : ℝ) / (m : ℝ)⌉ := by
  have hmR : (0 : ℝ) < (m : ℝ) := by exact_mod_cast hm
  have hsR : (0 : ℝ) ≤ (s : ℝ) := by exact_mod_cast hs
  set n : ℕ := sqrtCeilDiv s m with hn
  set x : ℝ := Real.sqrt (s : ℝ) / (m : ℝ) with hx
  have hx0 : 0 ≤ x := div_nonneg (Real.sqrt_nonneg _) hmR.le
  apply le_antisymm
  · -- (sqrtCeilDiv s m : ℤ) ≤ ⌈x⌉, by minimality of sqrtCeilDiv.
    have hK : (0 : ℤ) ≤ ⌈x⌉ := Int.ceil_nonneg hx0
    set K : ℕ := (⌈x⌉).toNat with hKdef
    have hKast : (K : ℤ) = ⌈x⌉ := by
      rw [hKdef]; exact Int.toNat_of_nonneg hK
    have hKx : x ≤ (K : ℝ) := by
      have h1 : x ≤ (⌈x⌉ : ℝ) := Int.le_ceil x
      have h2 : ((⌈x⌉ : ℤ) : ℝ) = (K : ℝ) := by exact_mod_cast hKast.symm
      linarith
    have hsqle : Real.sqrt (s : ℝ) ≤ (K : ℝ) * (m : ℝ) := by
      rw [hx] at hKx
      calc Real.sqrt (s : ℝ) = Real.sqrt (s : ℝ) / (m : ℝ) * (m : ℝ) := by
            field_simp
        _ ≤ (K : ℝ) * (m : ℝ) := mul_le_mul_of_nonneg_right hKx hmR.le
    have hsle : (s : ℝ) ≤ ((K : ℝ) * (m : ℝ)) ^ 2 := by
      have h3 : Real.sqrt (s : ℝ) ^ 2 ≤ ((K : ℝ) * (m : ℝ)) ^ 2 :=
        pow_le_pow_left (Real.sqrt_nonneg _) hsqle 2
      rwa [Real.sq_sqrt hsR] at h3
    have hsleQ : s / m ^ 2 ≤ (K : ℚ) ^ 2 := by
      rw [div_le_iff (by positivity)]
      have h7 : s ≤ ((K : ℚ) * m) ^ 2 := by exact_mod_cast hsle
      nlinarith [h7]
    have hnK : n ≤ K := ratCeilSqrt_le hsleQ
    calc (n : ℤ) ≤ (K : ℤ) := by exact_mod_cast hnK
      _ = ⌈x⌉ := hKast
  · -- ⌈x⌉ ≤ n since x ≤ n.
    apply Int.ceil_le.mpr
    have h1 : s / m ^ 2 ≤ (n : ℚ) ^ 2 := ratCeilSqrt_spec _
    have h2 : (s : ℝ) ≤ ((n : ℝ) * (m : ℝ)) ^ 2 := by
      have h3 : s ≤ (n : ℚ) ^ 2 * m ^ 2 := by
        rw [div_le_iff (by positivity)] at h1
        linarith
      have h4 : (s : ℝ) ≤ (((n : ℚ) ^ 2 * m ^ 2 : ℚ) : ℝ) := by exact_mod_cast h3
      calc (s : ℝ) ≤ (((n : ℚ) ^ 2 * m ^ 2 : ℚ) : ℝ) := h4
        _ = ((n : ℝ) * (m : ℝ)) ^ 2 := by push_cast; ring
    have h5 : Real.sqrt (s : ℝ) ≤ (n : ℝ) * (m : ℝ) := by
      have h6 := Real.sqrt_le_sqrt h2
      rwa [Real.sqrt_sq (by positivity)] at h6
    rw [hx, div_le_iff hmR]
    push_cast
    exact h5

/-- Exact-value characterization of `ratCeilSqrt`, used to evaluate it
on concrete inputs. -/
theorem ratCeilSqrt_eq_of {t : ℚ} {n : ℕ} (h1 : t ≤ (n : ℚ) ^ 2)
    (h2 : n = 0 ∨ ((n : ℚ) - 1) ^ 2 < t) : ratCeilSqrt t = n := by
  apply le_antisymm (ratCeilSqrt_le h1)
  rcases h2 with rfl | h2
  · exact Nat.zero_le _
  · by_contra hlt
    push_neg at hlt
    have hn1 : 1 ≤ n := by omega
    have hr : ratCeilSqrt t ≤ n - 1 := by omega
    have hrQ : ((ratCeilSqrt t : ℕ) : ℚ) ≤ (n : ℚ) - 1 := by
      have : ((ratCeilSqrt t : ℕ) : ℚ) ≤ ((n - 1 : ℕ) : ℚ) := by exact_mod_cast hr
      have hcast : ((n - 1 : ℕ) : ℚ) = (n : ℚ) - 1 := by
        have : (1 : ℕ) ≤ n := hn1
        push_cast [Nat.cast_sub this]
        ring
      linarith [hcast ▸ this]
    have hspec := ratCeilSqrt_spec t
    have hsq : ((ratCeilSqrt t : ℕ) : ℚ) ^ 2 ≤ ((n : ℚ) - 1) ^ 2 := by
      apply pow_le_pow_left (by positivity) hrQ
    linarith

/-- The squared Euclidean distance `dx*dx + dy*dy` computed by
`addPoint` between the (rounded, integer) `lastPoint` and the incoming
point. -/
def distSq (lp : IPoint) (p : Point) : ℚ :=
  ((lp.x : ℚ) - p.x) * ((lp.x : ℚ) - p.x) + ((lp.y : ℚ) - p.y) * ((lp.y : ℚ) - p.y)

/-- Squared Euclidean distance between two rational points. -/
def pointDistSq (a b : Point) : ℚ := (a.x - b.x) ^ 2 + (a.y - b.y) ^ 2

/-- The stroke interpolator `addPoint(point, tween)` of the source,
acting on the engine's `lastPoint` and `paintQueue` and returning their
new values.

Source behavior embedded here: when `tween` is truthy and `lastPoint`
exists, it computes `dx = lastPoint.x - point.x`,
`dy = lastPoint.y - point.y`, `dist = Math.sqrt(dx*dx + dy*dy)`; if
`dist > minPointDist` it sets `numSegments = Math.ceil(dist / minPointDist)`,
divides `dx`, `dy` by `numSegments` and pushes
`{x: Math.round(point.x + i*dx), y: Math.round(point.y + i*dy)}` for
`i = 1, ..., numSegments - 1`; finally it always pushes the rounded
point and records it as the new `lastPoint`.  The comparison
`dist > minPointDist` is embedded as the equivalent exact comparison
`minPointDist * minPointDist < dx*dx + dy*dy` (see `sq_lt_iff_lt_sqrt`;
`minPointDist` is nonnegative in the source: 10 initially, then
`brushCanvas.width / 2`), and `Math.ceil(dist / minPointDist)` as the
equal exact value `sqrtCeilDiv (dx*dx + dy*dy) minPointDist` (see
`sqrtCeilDiv_eq_ceil_sqrt_div`). -/
def addPoint (minPointDist : ℚ) (lastPoint : Option IPoint)
    (paintQueue : List IPoint) (point : Point) (tween : Bool) :
    Option IPoint × List IPoint :=
  let tweened : List IPoint :=
    match tween, lastPoint with
    | true, some lp =>
      let dx : ℚ := (lp.x : ℚ) - point.x
      let dy : ℚ := (lp.y : ℚ) - point.y
      if minPointDist * minPointDist < dx * dx + dy * dy then
        let numSegments : ℕ := sqrtCeilDiv (dx * dx + dy * dy) minPointDist
        (List.range (numSegments - 1)).map (fun i =>
          { x := jsRound (point.x + ((i + 1 : ℕ) : ℚ) * (dx / (numSegments : ℚ))),
            y := jsRound (point.y + ((i + 1 : ℕ) : ℚ) * (dy / (numSegments : ℚ))) })
      else []
    | _, _ => []
  let rounded : IPoint := { x := jsRound point.x, y := jsRound point.y }
  (some rounded, paintQueue ++ tweened ++ [rounded])

/-- The unrounded `i`-th tween position: the new point plus `i/n` of
the vector from the new point to the previous point. -/
def tweenPoint (p : Point) (lp : IPoint) (n : ℕ) (i : ℕ) : Point :=
  { x := p.x + (i : ℚ) / (n : ℚ) * ((lp.x : ℚ) - p.x),
    y := p.y + (i : ℚ) / (n : ℚ) * ((lp.y : ℚ) - p.y) }

theorem distSq_nonneg (lp : IPoint) (p : Point) : 0 ≤ distSq lp p := by
  have h1 := mul_self_nonneg ((lp.x : ℚ) - p.x)
  have h2 := mul_self_nonneg ((lp.y : ℚ) - p.y)
  unfold distSq
  linarith

theorem sqrtCeilDiv_pos {s m : ℚ} (hm : 0 < m) (h : m * m < s) :
    1 ≤ sqrtCeilDiv s m := by
  by_contra h0
  push_neg at h0
  have h1 : sqrtCeilDiv s m = 0 := by omega
  have h2 := ratCeilSqrt_spec (s / m ^ 2)
  unfold sqrtCeilDiv at h1
  rw [h1] at h2
  have h3 : s / m ^ 2 ≤ 0 := by simpa using h2
  have h4 : 0 < s := lt_trans (by positivity) h
  have h5 : 0 < s / m ^ 2 := by positivity
  linarith

/-- Unpacked form of `addPoint` in the tween-and-distant case, with the
guard and segment count rephrased through `Real.sqrt`. -/
theorem addPoint_tween_eq (m : ℚ) (lp : IPoint) (q : List IPoint) (p : Point)
    (hm : 0 < m) (hdist : (m : ℝ) < Real.sqrt ((distSq lp p : ℚ) : ℝ)) :
    (addPoint m (some lp) q p true).2
      = q ++ ((List.range (sqrtCeilDiv (distSq lp p) m - 1)).map fun i =>
          { x := jsRound (tweenPoint p lp (sqrtCeilDiv (distSq lp p) m) (i + 1)).x,
            y := jsRound (tweenPoint p lp (sqrtCeilDiv (distSq lp p) m) (i + 1)).y })
        ++ [{ x := jsRound p.x, y := jsRound p.y }] := by
  have hg : m * m < distSq lp p := by
    have := (sq_lt_iff_lt_sqrt hm.le).mpr hdist
    calc m * m = m ^ 2 := (pow_two m).symm
      _ < distSq lp p := this
  unfold addPoint
  simp only
  rw [show (((lp.x : ℚ) - p.x) * ((lp.x : ℚ) - p.x)
        + ((lp.y : ℚ) - p.y) * ((lp.y : ℚ) - p.y)) = distSq lp p from rfl]
  rw [if_pos hg]
  congr 1
  congr 1
  apply List.map_congr_left
  intro i _
  have hx : p.x + ((i + 1 : ℕ) : ℚ) * (((lp.x : ℚ) - p.x) / ((sqrtCeilDiv (distSq lp p) m : ℕ) : ℚ))
      = (tweenPoint p lp (sqrtCeilDiv (distSq lp p) m) (i + 1)).x := by
    unfold tweenPoint
    push_cast
    ring
  have hy : p.y + ((i + 1 : ℕ) : ℚ) * (((lp.y : ℚ) - p.y) / ((sqrtCeilDiv (distSq lp p) m : ℕ) : ℚ))
      = (tweenPoint p lp (sqrtCeilDiv (distSq lp p) m) (i + 1)).y := by
    unfold tweenPoint
    push_cast
    ring
  rw [hx, hy]

/-- Claim C1 (amended): in a tweened `addPoint` call with a previous
point at Euclidean distance `dist > minPointDist` (with
`minPointDist > 0`), the number of points appended to the paint queue
is exactly `⌈dist / minPointDist⌉` (that is, `⌈dist / minPointDist⌉ - 1`
intermediate points followed by the final point); in every other case
(`dist ≤ minPointDist`, no previous point, or `tween = false`) exactly
one point is appended.  The original claim counted
`⌈dist / minPointDist⌉ + 1` appended points in the distant case; the
source's loop `for (i = 1; i < numSegments; i++)` yields one fewer. -/
theorem addPoint_count_amended (m : ℚ) (q : List IPoint) (p : Point) (hm : 0 < m) :
    (∀ lp : IPoint, (m : ℝ) < Real.sqrt ((distSq lp p : ℚ) : ℝ) →
        ((addPoint m (some lp) q p true).2).length
          = q.length + (⌈Real.sqrt ((distSq lp p : ℚ) : ℝ) / (m : ℝ)⌉).toNat)
    ∧ (∀ lp : IPoint, Real.sqrt ((distSq lp p : ℚ) : ℝ) ≤ (m : ℝ) →
        ((addPoint m (some lp) q p true).2).length = q.length + 1)
    ∧ (∀ tween : Bool, ((addPoint m none q p tween).2).length = q.length + 1)
    ∧ (∀ lastPoint : Option IPoint,
        ((addPoint m lastPoint q p false).2).length = q.length + 1) := by
  refine ⟨?_, ?_, ?_, ?_⟩
  · intro lp hdist
    have hg : m * m < distSq lp p := by
      have := (sq_lt_iff_lt_sqrt hm.le).mpr hdist
      calc m * m = m ^ 2 := (pow_two m).symm
        _ < distSq lp p := this
    have hn1 : 1 ≤ sqrtCeilDiv (distSq lp p) m := sqrtCeilDiv_pos hm hg
    have hbridge : ((sqrtCeilDiv (distSq lp p) m : ℕ) : ℤ)
        = ⌈Real.sqrt ((distSq lp p : ℚ) : ℝ) / (m : ℝ)⌉ :=
      sqrtCeilDiv_eq_ceil_sqrt_div (distSq_nonneg lp p) hm
    rw [addPoint_tween_eq m lp q p hm hdist]
    simp only [List.length_append, List.length_map, List.length_range, List.length_singleton]
    omega
  · intro lp hdist
    have hg : ¬ (m * m < distSq lp p) := by
      push_neg
      have h1 : ¬ (m ^ 2 < distSq lp p) := by
        rw [sq_lt_iff_lt_sqrt hm.le]
        push_neg
        exact hdist
      push_neg at h1
      calc distSq lp p ≤ m ^ 2 := h1
        _ = m * m := pow_two m
    unfold addPoint
    simp only
    rw [show (((lp.x : ℚ) - p.x) * ((lp.x : ℚ) - p.x)
          + ((lp.y : ℚ) - p.y) * ((lp.y : ℚ) - p.y)) = distSq lp p from rfl]
    rw [if_neg hg]
    simp
  · intro tween
    unfold addPoint
    cases tween <;> simp
  · intro lastPoint
    unfold addPoint
    cases lastPoint <;> simp

/-- Shared concrete evaluation: the tweened call at `minPointDist = 10`
from previous point `(0,0)` to new point `(30,0)` appends the three
points `(20,0)`, `(10,0)`, `(30,0)`. -/
theorem addPoint_eval_concrete :
    (addPoint 10 (some ⟨0, 0⟩) [] ⟨30, 0⟩ true).2
      = [⟨20, 0⟩, ⟨10, 0⟩, ⟨30, 0⟩] := by
  have hseg : sqrtCeilDiv 900 10 = 3 := by
    unfold sqrtCeilDiv
    norm_num
    exact ratCeilSqrt_eq_of (by norm_num) (Or.inr (by norm_num))
  unfold addPoint
  norm_num
  rw [hseg]
  norm_num [jsRound, List.range_succ]

/-- Shared concrete evaluation: the squared distance from `(0,0)` to
`(30,0)` is `900` and its real square root is `30`. -/
theorem distSq_eval_concrete :
    (distSq ⟨0, 0⟩ ⟨30, 0⟩ : ℚ) = 900
    ∧ Real.sqrt ((distSq ⟨0, 0⟩ ⟨30, 0⟩ : ℚ) : ℝ) = 30 := by
  have h900 : (distSq ⟨0, 0⟩ ⟨30, 0⟩ : ℚ) = 900 := by norm_num [distSq]
  refine ⟨h900, ?_⟩
  rw [h900, show ((900 : ℚ) : ℝ) = (30 : ℝ) ^ 2 by norm_num]
  exact Real.sqrt_sq (by norm_num)

/-- Claim C1, counterexample to the original statement: at
`minPointDist = 10`, previous point `(0,0)`, new point `(30,0)`, the
distance is `30 > 10`, `⌈30 / 10⌉ = 3`, and the call appends 3 points,
not the claimed `⌈dist / minSpacing⌉ + 1 = 4`. -/
theorem addPoint_count_claim_counterexample :
    ¬ (((addPoint 10 (some ⟨0, 0⟩) [] ⟨30, 0⟩ true).2).length
        = ([] : List IPoint).length
          + ((⌈Real.sqrt ((distSq ⟨0, 0⟩ ⟨30, 0⟩ : ℚ) : ℝ) / ((10 : ℚ) : ℝ)⌉).toNat + 1)) := by
  rw [addPoint_eval_concrete, distSq_eval_concrete.2]
  norm_num
  decide

/-- Witness for `addPoint_count_amended` at `minPointDist = 10`,
previous point `(0,0)`, new point `(30,0)`. -/
theorem addPoint_count_amended_witness :
    ((addPoint 10 (some ⟨0, 0⟩) [] ⟨30, 0⟩ true).2).length
      = ([] : List IPoint).length
        + (⌈Real.sqrt ((distSq ⟨0, 0⟩ ⟨30, 0⟩ : ℚ) : ℝ) / ((10 : ℚ) : ℝ)⌉).toNat :=
  (addPoint_count_amended 10 [] ⟨30, 0⟩ (by norm_num)).1 ⟨0, 0⟩
    (by rw [distSq_eval_concrete.2]; norm_num)

/-- Claim C9: in a tweened `addPoint` call past the distance guard, with
`n = ⌈dist / minPointDist⌉` segments, the appended points are the
roundings of the positions `point + (i/n)·(lastPoint - point)` for
`i = 1, ..., n-1` (the new point plus `i/n` of the vector from the new
point to the previous point) followed by the rounded new point last;
before rounding each intermediate lies strictly inside the segment
between the two points, and as `i` grows the intermediates move from
nearest the new point toward nearest the previous point. -/
theorem addPoint_tween_geometry (m : ℚ) (lp : IPoint) (q : List IPoint) (p : Point)
    (hm : 0 < m) (hdist : (m : ℝ) < Real.sqrt ((distSq lp p : ℚ) : ℝ)) :
    ∃ n : ℕ, (n : ℤ) = ⌈Real.sqrt ((distSq lp p : ℚ) : ℝ) / (m : ℝ)⌉
      ∧ (addPoint m (some lp) q p true).2
          = q ++ ((List.range (n - 1)).map fun i =>
              { x := jsRound (tweenPoint p lp n (i + 1)).x,
                y := jsRound (tweenPoint p lp n (i + 1)).y })
            ++ [{ x := jsRound p.x, y := jsRound p.y }]
      ∧ (∀ i : ℕ, 1 ≤ i → i ≤ n - 1 → ∃ t : ℚ, 0 < t ∧ t < 1 ∧
            (tweenPoint p lp n i).x = p.x + t * ((lp.x : ℚ) - p.x) ∧
            (tweenPoint p lp n i).y = p.y + t * ((lp.y : ℚ) - p.y))
      ∧ (∀ i j : ℕ, 1 ≤ i → i < j → j ≤ n - 1 →
            pointDistSq (tweenPoint p lp n i) p < pointDistSq (tweenPoint p lp n j) p
          ∧ pointDistSq (tweenPoint p lp n j) { x := (lp.x : ℚ), y := (lp.y : ℚ) }
              < pointDistSq (tweenPoint p lp n i) { x := (lp.x : ℚ), y := (lp.y : ℚ) }) := by
  have hg : m * m < distSq lp p := by
    have := (sq_lt_iff_lt_sqrt hm.le).mpr hdist
    calc m * m = m ^ 2 := (pow_two m).symm
      _ < distSq lp p := this
  have hS : 0 < distSq lp p := lt_trans (by positivity) hg
  refine ⟨sqrtCeilDiv (distSq lp p) m, sqrtCeilDiv_eq_ceil_sqrt_div (distSq_nonneg lp p) hm,
    addPoint_tween_eq m lp q p hm hdist, ?_, ?_⟩
  · -- strictly inside the segment
    intro i h1 h2
    set n := sqrtCeilDiv (distSq lp p) m with hn
    have hn1 : 1 ≤ n := sqrtCeilDiv_pos hm hg
    have hiltn : i < n := by omega
    have hnQ : (0 : ℚ) < (n : ℚ) := by exact_mod_cast (by omega : 0 < n)
    refine ⟨(i : ℚ) / (n : ℚ), ?_, ?_, rfl, rfl⟩
    · apply div_pos _ hnQ
      exact_mod_cast (by omega : 0 < i)
    · rw [div_lt_one hnQ]
      exact_mod_cast hiltn
  · -- ordered from nearest the new point toward nearest the previous point
    intro i j h1 hij h2
    set n := sqrtCeilDiv (distSq lp p) m with hn
    have hn1 : 1 ≤ n := sqrtCeilDiv_pos hm hg
    have hnQ : (0 : ℚ) < (n : ℚ) := by exact_mod_cast (by omega : 0 < n)
    have hiQ : (0 : ℚ) ≤ (i : ℚ) := by positivity
    have hijQ : (i : ℚ) < (j : ℚ) := by exact_mod_cast hij
    have hjn : (j : ℚ) ≤ (n : ℚ) - 1 := by
      have : j + 1 ≤ n := by omega
      have h3 : ((j + 1 : ℕ) : ℚ) ≤ (n : ℚ) := by exact_mod_cast this
      push_cast at h3
      linarith
    have hto : ∀ k : ℕ, pointDistSq (tweenPoint p lp n k) p
        = ((k : ℚ) / (n : ℚ)) ^ 2 * distSq lp p := by
      intro k
      unfold pointDistSq tweenPoint distSq
      ring
    have hfrom : ∀ k : ℕ, pointDistSq (tweenPoint p lp n k) { x := (lp.x : ℚ), y := (lp.y : ℚ) }
        = (1 - (k : ℚ) / (n : ℚ)) ^ 2 * distSq lp p := by
      intro k
      unfold pointDistSq tweenPoint distSq
      field_simp
      ring
    have hdivlt : (i : ℚ) / (n : ℚ) < (j : ℚ) / (n : ℚ) :=
      (div_lt_div_right hnQ).mpr hijQ
    constructor
    · rw [hto i, hto j]
      apply mul_lt_mul_of_pos_right _ hS
      exact pow_lt_pow_left hdivlt (by positivity) two_ne_zero
    · rw [hfrom i, hfrom j]
      apply mul_lt_mul_of_pos_right _ hS
      have h1j : 0 ≤ 1 - (j : ℚ) / (n : ℚ) := by
        rw [sub_nonneg, div_le_one hnQ]
        linarith
      have hlt : 1 - (j : ℚ) / (n : ℚ) < 1 - (i : ℚ) / (n : ℚ) := by linarith
      exact pow_lt_pow_left hlt h1j two_ne_zero

/-- Witness for `addPoint_tween_geometry` at `minPointDist = 10`,
previous point `(0,0)`, new point `(30,0)`. -/
theorem addPoint_tween_geometry_witness :
    ∃ n : ℕ, (n : ℤ) = ⌈Real.sqrt ((distSq ⟨0, 0⟩ ⟨30, 0⟩ : ℚ) : ℝ) / ((10 : ℚ) : ℝ)⌉
      ∧ (addPoint 10 (some ⟨0, 0⟩) [] ⟨30, 0⟩ true).2
          = [] ++ ((List.range (n - 1)).map fun i =>
              { x := jsRound (tweenPoint ⟨30, 0⟩ ⟨0, 0⟩ n (i + 1)).x,
                y := jsRound (tweenPoint ⟨30, 0⟩ ⟨0, 0⟩ n (i + 1)).y })
            ++ [{ x := jsRound (30 : ℚ), y := jsRound (0 : ℚ) }]
      ∧ (∀ i : ℕ, 1 ≤ i → i ≤ n - 1 → ∃ t : ℚ, 0 < t ∧ t < 1 ∧
            (tweenPoint ⟨30, 0⟩ ⟨0, 0⟩ n i).x = (30 : ℚ) + t * (((0 : ℤ) : ℚ) - 30) ∧
            (tweenPoint ⟨30, 0⟩ ⟨0, 0⟩ n i).y = (0 : ℚ) + t * (((0 : ℤ) : ℚ) - 0))
      ∧ (∀ i j : ℕ, 1 ≤ i → i < j → j ≤ n - 1 →
            pointDistSq (tweenPoint ⟨30, 0⟩ ⟨0, 0⟩ n i) ⟨30, 0⟩
              < pointDistSq (tweenPoint ⟨30, 0⟩ ⟨0, 0⟩ n j) ⟨30, 0⟩
          ∧ pointDistSq (tweenPoint ⟨30, 0⟩ ⟨0, 0⟩ n j) { x := ((0 : ℤ) : ℚ), y := ((0 : ℤ) : ℚ) }
              < pointDistSq (tweenPoint ⟨30, 0⟩ ⟨0, 0⟩ n i) { x := ((0 : ℤ) : ℚ), y := ((0 : ℤ) : ℚ) }) :=
  addPoint_tween_geometry 10 ⟨0, 0⟩ [] ⟨30, 0⟩ (by norm_num)
    (by rw [distSq_eval_concrete.2]; norm_num)

/-! Section: Reveal detector (`testRevealed`) -/

/-- Observable side effects of one `testRevealed` call: reading the
overlay's pixel buffer via `getImageData`, and invoking the user's
reveal callback. -/
inductive RevealAction where
  | readPixels
  | fireReveal
  deriving DecidableEq, Repr

/-- Number of pixels classified as visible (revealed): those whose
alpha channel value is `≤ 128` (`alphaThreshold` in the source, which
walks `pixels.data` in steps of 4 reading the alpha byte `data[i+3]`
and increments `numVisible` when it is at most the threshold).  A
pixel buffer is modelled as the list of its pixels' alpha values. -/
def numVisible (alphas : List ℚ) : ℕ := (alphas.filter (fun a => a ≤ 128)).length

/-- The reveal detector `testRevealed()`.  Inputs: the configured
`revealThreshold`, the current `isRevealed` flag, and the overlay's
alpha values (`totalPixels = overlayCanvas.width * overlayCanvas.height`
is the buffer's pixel count).  Returns the new `isRevealed` flag and
the trace of observable effects: if `isRevealed` is already set it
returns immediately; otherwise it reads the pixel buffer, computes
`numVisible / totalPixels * 100` and, when that is `≥ revealThreshold`,
invokes the reveal callback and sets the flag. -/
def testRevealed (revealThreshold : ℚ) (isRevealed : Bool) (alphas : List ℚ) :
    Bool × List RevealAction :=
  if isRevealed then (isRevealed, [])
  else
    if revealThreshold ≤ (numVisible alphas : ℚ) / (alphas.length : ℚ) * 100 then
      (true, [.readPixels, .fireReveal])
    else
      (false, [.readPixels])

/-- A sequence of `testRevealed` calls (one per pointer release),
threading the `isRevealed` flag and concatenating the effect traces. -/
def runTestRevealed (revealThreshold : ℚ) (isRevealed : Bool) :
    List (List ℚ) → Bool × List RevealAction
  | [] => (isRevealed, [])
  | b :: rest =>
    let r := testRevealed revealThreshold isRevealed b
    let rr := runTestRevealed revealThreshold r.1 rest
    (rr.1, r.2 ++ rr.2)

theorem runTestRevealed_true (thr : ℚ) (bufs : List (List ℚ)) :
    runTestRevealed thr true bufs = (true, []) := by
  induction bufs with
  | nil => rfl
  | cons b rest ih =>
    unfold runTestRevealed testRevealed
    simp [ih]

/-- Claim C2: across any sequence of `testRevealed` calls starting from
the initial un-revealed state, the reveal callback fires at most once;
and once the flag is `true`, every further call returns with the flag
still `true` and performs no observable effect at all (no pixel read,
no callback). -/
theorem testRevealed_at_most_once (thr : ℚ) (bufs : List (List ℚ)) :
    ((runTestRevealed thr false bufs).2).count RevealAction.fireReveal ≤ 1
    ∧ ∀ alphas : List ℚ, testRevealed thr true alphas = (true, []) := by
  constructor
  · induction bufs with
    | nil => simp [runTestRevealed]
    | cons b rest ih =>
      unfold runTestRevealed
      by_cases hc : thr ≤ (numVisible b : ℚ) / (b.length : ℚ) * 100
      · simp only [testRevealed, if_neg (Bool.false_ne_true), if_pos hc,
          runTestRevealed_true, List.count_append]
        simp [List.count_cons]
      · simp only [testRevealed, if_neg (Bool.false_ne_true), if_neg hc, List.count_append]
        simpa [List.count_cons] using ih
  · intro alphas
    simp [testRevealed]

/-- Claim C3: on a first-time `testRevealed` call, a pixel counts as
revealed exactly when its alpha is at most 128; the computed fraction
is `numVisible / totalPixels * 100`; the callback fires exactly when
that fraction is at least the configured threshold; a threshold of `0`
always fires; and a threshold of `100` fires exactly when every pixel's
alpha is at most 128 (the buffer being nonempty). -/
theorem testRevealed_threshold (thr : ℚ) (alphas : List ℚ) (hne : alphas ≠ []) :
    (testRevealed thr false alphas = (true, [.readPixels, .fireReveal])
      ↔ thr ≤ (numVisible alphas : ℚ) / (alphas.length : ℚ) * 100)
    ∧ (testRevealed thr false alphas = (false, [.readPixels])
      ↔ ¬ thr ≤ (numVisible alphas : ℚ) / (alphas.length : ℚ) * 100)
    ∧ numVisible alphas = (alphas.filter (fun a => a ≤ 128)).length
    ∧ testRevealed 0 false alphas = (true, [.readPixels, .fireReveal])
    ∧ (testRevealed 100 false alphas = (true, [.readPixels, .fireReveal])
      ↔ ∀ a ∈ alphas, a ≤ 128) := by
  have hlen : 0 < (alphas.length : ℚ) := by
    have := List.length_pos.mpr hne
    exact_mod_cast this
  have hfire : ∀ t : ℚ, t ≤ (numVisible alphas : ℚ) / (alphas.length : ℚ) * 100 →
      testRevealed t false alphas = (true, [.readPixels, .fireReveal]) := by
    intro t ht
    unfold testRevealed
    simp [ht]
  have hnofire : ∀ t : ℚ, ¬ t ≤ (numVisible alphas : ℚ) / (alphas.length : ℚ) * 100 →
      testRevealed t false alphas = (false, [.readPixels]) := by
    intro t ht
    unfold testRevealed
    simp [ht]
  refine ⟨⟨fun h => ?_, hfire thr⟩, ⟨fun h => ?_, hnofire thr⟩, rfl, ?_, ?_⟩
  · by_contra hc
    rw [hnofire thr hc] at h
    simp at h
  · intro hc
    rw [hfire thr hc] at h
    simp at h
  · apply hfire
    positivity
  · constructor
    · intro h
      by_contra hall
      have hnv : numVisible alphas < alphas.length := by
        have hle : numVisible alphas ≤ alphas.length := List.length_filter_le _ _
        rcases Nat.lt_or_ge (numVisible alphas) alphas.length with hlt | hge
        · exact hlt
        · exfalso
          have heq : (alphas.filter (fun a => a ≤ 128)).length = alphas.length := by
            unfold numVisible at hle hge
            omega
          have heq2 : alphas.filter (fun a => a ≤ 128) = alphas :=
            (List.filter_sublist alphas).eq_of_length heq
          rw [List.filter_eq_self] at heq2
          exact hall (by intro a ha; simpa using heq2 a ha)
      have hfrac : (numVisible alphas : ℚ) / (alphas.length : ℚ) * 100 < 100 := by
        have hq : (numVisible alphas : ℚ) < (alphas.length : ℚ) := by exact_mod_cast hnv
        have : (numVisible alphas : ℚ) / (alphas.length : ℚ) < 1 := by
          rw [div_lt_one hlen]
          exact hq
        nlinarith
      rw [hnofire 100 (by linarith)] at h
      simp at h
    · intro hall
      apply hfire
      have heq : numVisible alphas = alphas.length := by
        unfold numVisible
        rw [List.filter_eq_self.mpr (by intro a ha; simpa using hall a ha)]
      rw [heq, div_self (ne_of_gt hlen)]
      norm_num

/-- Witness for `testRevealed_threshold` with the one-pixel fully
transparent buffer `[0]` and threshold `100`. -/
theorem testRevealed_threshold_witness :
    testRevealed 100 false [(0 : ℚ)] = (true, [.readPixels, .fireReveal]) :=
  (testRevealed_threshold 100 [(0 : ℚ)] (by simp)).2.2.2.2.mpr (by
    intro a ha
    simp at ha
    simp [ha])

/-! Section: Viewport transform (`onResize`) and threshold clamp (`construct`) -/

/-- The resize handler's scale computation:
`scale = 1 / (parentEl.getBoundingClientRect().width / overlayCanvas.width)`. -/
def onResize (containerRenderedWidth overlayCanvasWidth : ℚ) : ℚ :=
  1 / (containerRenderedWidth / overlayCanvasWidth)

/-- Claim C4: the scale recomputed on resize is `1 / (w / W)` for
container rendered width `w` and overlay native width `W`; in
particular at `w = 800`, `W = 200` it is `0.25`. -/
theorem onResize_scale :
    (∀ w W : ℚ, onResize w W = 1 / (w / W)) ∧ onResize 800 200 = 1 / 4 :=
  ⟨fun _ _ => rfl, by norm_num [onResize]⟩

/-- The construction-time reveal-threshold clamp:
`Math.max(0, Math.min(100, arguments.length > 4 ? arguments[4] * 1 : 0))`.
`none` models a call with fewer than five arguments. -/
def clampThreshold (supplied : Option ℚ) : ℚ := max 0 (min 100 (supplied.getD 0))

/-- Claim C5: the effective threshold always lies in `[0, 100]`; supplied
values below `0` become `0` and values above `100` become `100`. -/
theorem clampThreshold_range :
    (∀ supplied : Option ℚ,
      0 ≤ clampThreshold supplied ∧ clampThreshold supplied ≤ 100)
    ∧ (∀ v : ℚ, v < 0 → clampThreshold (some v) = 0)
    ∧ (∀ v : ℚ, 100 < v → clampThreshold (some v) = 100) := by
  refine ⟨fun supplied => ⟨le_max_left _ _, ?_⟩, fun v hv => ?_, fun v hv => ?_⟩
  · exact max_le (by norm_num) (min_le_left _ _)
  · unfold clampThreshold
    simp only [Option.getD_some]
    rw [min_eq_right (by linarith), max_eq_left (by linarith)]
  · unfold clampThreshold
    simp only [Option.getD_some]
    rw [min_eq_left (by linarith)]
    exact max_eq_right (by norm_num)

/-- Witness for `clampThreshold_range` at supplied values `-5` and `250`. -/
theorem clampThreshold_range_witness :
    clampThreshold (some (-5)) = 0 ∧ clampThreshold (some 250) = 100 :=
  ⟨clampThreshold_range.2.1 (-5) (by norm_num),
   clampThreshold_range.2.2 250 (by norm_num)⟩

/-! Section: Load join (`construct` / `onCanvasLoaded`) -/

/-- The flags and canvas slots consulted by `onCanvasLoaded`.
`overlayLoaded` / `brushLoaded` are set once the corresponding fetch
has settled (success or failure); `overlayCanvas` / `brushCanvas`
record the truthiness of the stored value (`false` models the literal
`false` passed by `getCanvasFromImage` on failure, `true` a canvas). -/
structure LoadState where
  overlayLoaded : Bool
  brushLoaded : Bool
  overlayCanvas : Bool
  brushCanvas : Bool
  deriving DecidableEq, Repr

/-- Observable steps of widget initialization: logging the load
failure, attaching the pointer/resize listeners (with the rest of the
widget build: appending the canvas, contexts, composite mode,
`minPointDist`), starting the `requestAnimationFrame` render loop, and
invoking the ready (`loadedCallback`) callback. -/
inductive InitAction where
  | logError
  | attachListeners
  | startRenderLoop
  | fireLoaded
  deriving DecidableEq, Repr

/-- `onCanvasLoaded()`: returns without work until both fetches have
settled; logs an error and stops if either canvas is missing; otherwise
builds the widget, starts the render loop and fires the ready
callback. -/
def onCanvasLoaded (st : LoadState) : List InitAction :=
  if !(st.overlayLoaded && st.brushLoaded) then []
  else if !(st.overlayCanvas && st.brushCanvas) then [.logError]
  else [.attachListeners, .startRenderLoop, .fireLoaded]

/-- The overlay-load completion callback of `construct`: sets
`overlayLoaded`, stores the result, and runs `onCanvasLoaded`. -/
def settleOverlay (result : Bool) (st : LoadState) : LoadState × List InitAction :=
  let st2 := { st with overlayLoaded := true, overlayCanvas := result }
  (st2, onCanvasLoaded st2)

/-- The brush-load completion callback of `construct`. -/
def settleBrush (result : Bool) (st : LoadState) : LoadState × List InitAction :=
  let st2 := { st with brushLoaded := true, brushCanvas := result }
  (st2, onCanvasLoaded st2)

/-- The state set up by `construct` before either load settles. -/
def initialLoadState : LoadState :=
  { overlayLoaded := false, brushLoaded := false,
    overlayCanvas := false, brushCanvas := false }

/-- Both loads settling, in either order (`overlayFirst`), with results
`rO` (overlay) and `rB` (brush): the action traces of the first and the
second completion callback. -/
def runLoads (overlayFirst rO rB : Bool) : List InitAction × List InitAction :=
  if overlayFirst then
    let s1 := settleOverlay rO initialLoadState
    let s2 := settleBrush rB s1.1
    (s1.2, s2.2)
  else
    let s1 := settleBrush rB initialLoadState
    let s2 := settleOverlay rO s1.1
    (s1.2, s2.2)

/-- Claim C6: whatever the two load outcomes and settle order, the first
settle does nothing; after the second settle the engine initializes
(listeners, render loop, ready callback — the ready callback exactly
once) precisely when both loads succeeded, and otherwise only logs the
failure; so the ready callback fires exactly once, only after both
loads settle, and only when both succeeded. -/
theorem onCanvasLoaded_join :
    ∀ overlayFirst rO rB : Bool,
      (runLoads overlayFirst rO rB).1 = []
      ∧ (runLoads overlayFirst rO rB).2
          = (if rO && rB then [.attachListeners, .startRenderLoop, .fireLoaded]
             else [.logError])
      ∧ ((runLoads overlayFirst rO rB).1 ++ (runLoads overlayFirst rO rB).2).count
            InitAction.fireLoaded
          = (if rO && rB then 1 else 0) := by
  decide

/-! Section: Input state machine (`onPointerDown` / `onPointerMove` / `onPointerUp`) -/

/-- The engine state touched by the pointer handlers. -/
structure StrokeState where
  isPointerDown : Bool
  pointerOrigin : Point
  offsetOrigin : Point
  scale : ℚ
  minPointDist : ℚ
  lastPoint : Option IPoint
  paintQueue : List IPoint
  deriving DecidableEq, Repr

/-- Observable DOM/callback effects of the pointer handlers, in the
order the handlers perform them: cancelling the browser event, the
state mutations of `onPointerUp` (setting `isPointerDown = false`,
clearing `lastPoint`, resetting the origin anchors), the stroke
start/end observer hooks (`downCallback` / `upCallback`), and the call
into the reveal detector (`testRevealed`). -/
inductive PointerAction where
  | cancelEvent
  | setIdle
  | clearLastPoint
  | resetOrigins
  | fireDown
  | fireUp
  | revealTest
  deriving DecidableEq, Repr

/-- The data a pointer/mouse/touch event supplies to the handlers:
`getPointFromEvent` (viewport `clientX/Y`, or the first touch's) and
`getOffsetPointFromEvent` (coordinates relative to the overlay canvas,
via `offsetX/Y`, `layerX/Y` or the bounding-rect fallback). -/
structure PointerEventData where
  client : Point
  offset : Point
  deriving DecidableEq, Repr

/-- `getPointFromEvent`. -/
def getPointFromEvent (ev : PointerEventData) : Point := ev.client

/-- `getOffsetPointFromEvent`. -/
def getOffsetPointFromEvent (ev : PointerEventData) : Point := ev.offset

/-- `onPointerDown`: cancels the event, sets `isPointerDown`, anchors
`pointerOrigin` and `offsetOrigin` to the event, enqueues the scaled
origin point through `addPoint` without tweening, and invokes the
stroke-start hook.  There is no guard on the current state. -/
def onPointerDown (ev : PointerEventData) (st : StrokeState) :
    StrokeState × List PointerAction :=
  let pointerOrigin := getPointFromEvent ev
  let offsetOrigin := getOffsetPointFromEvent ev
  let ap := addPoint st.minPointDist st.lastPoint st.paintQueue
      { x := offsetOrigin.x * st.scale, y := offsetOrigin.y * st.scale } false
  ({ st with
      isPointerDown := true,
      pointerOrigin := pointerOrigin,
      offsetOrigin := offsetOrigin,
      lastPoint := ap.1,
      paintQueue := ap.2 },
   [.cancelEvent, .fireDown])

/-- `onPointerMove`: ignored unless a stroke is active; otherwise
cancels the event and feeds `offsetOrigin + (current - pointerOrigin)`,
scaled, to `addPoint` with tweening enabled. -/
def onPointerMove (ev : PointerEventData) (st : StrokeState) :
    StrokeState × List PointerAction :=
  if !st.isPointerDown then (st, [])
  else
    let pointerPosition := getPointFromEvent ev
    let ap := addPoint st.minPointDist st.lastPoint st.paintQueue
        { x := (st.offsetOrigin.x + (pointerPosition.x - st.pointerOrigin.x)) * st.scale,
          y := (st.offsetOrigin.y + (pointerPosition.y - st.pointerOrigin.y)) * st.scale } true
    ({ st with
        lastPoint := ap.1,
        paintQueue := ap.2 },
     [.cancelEvent])

/-- `onPointerUp`: returns immediately unless a stroke is active;
otherwise cancels the event, leaves the Stroking state, clears
`lastPoint` and the origin anchors, invokes the stroke-end hook, then
calls the reveal detector. -/
def onPointerUp (st : StrokeState) : StrokeState × List PointerAction :=
  if !st.isPointerDown then (st, [])
  else
    ({ st with
        isPointerDown := false,
        lastPoint := none,
        pointerOrigin := { x := 0, y := 0 },
        offsetOrigin := { x := 0, y := 0 } },
     [.cancelEvent, .setIdle, .clearLastPoint, .resetOrigins, .fireUp, .revealTest])

/-- Claim C7: a pointer-up while not Stroking is ignored entirely (state
untouched, no effect at all, not even event cancellation); a pointer-up
while Stroking moves the machine to Idle, clears the last-point memory,
then fires the stroke-end hook and after it the reveal detector exactly
once, in that order (the returned trace lists the handler's effects in
source order). -/
theorem onPointerUp_spec :
    ∀ st : StrokeState,
      (st.isPointerDown = false → onPointerUp st = (st, []))
      ∧ (st.isPointerDown = true →
          (onPointerUp st).1.isPointerDown = false
          ∧ (onPointerUp st).1.lastPoint = none
          ∧ (onPointerUp st).2
              = [.cancelEvent, .setIdle, .clearLastPoint, .resetOrigins,
                 .fireUp, .revealTest]) := by
  intro st
  constructor
  · intro h
    simp [onPointerUp, h]
  · intro h
    refine ⟨?_, ?_, ?_⟩ <;> simp [onPointerUp, h]

/-- Witness for `onPointerUp_spec` at a Stroking state and at an Idle
state. -/
theorem onPointerUp_spec_witness :
    (onPointerUp ⟨true, ⟨1, 2⟩, ⟨3, 4⟩, 1, 10, some ⟨3, 4⟩, [⟨3, 4⟩]⟩).2
      = [.cancelEvent, .setIdle, .clearLastPoint, .resetOrigins, .fireUp, .revealTest]
    ∧ onPointerUp ⟨false, ⟨1, 2⟩, ⟨3, 4⟩, 1, 10, none, []⟩
      = (⟨false, ⟨1, 2⟩, ⟨3, 4⟩, 1, 10, none, []⟩, []) :=
  ⟨((onPointerUp_spec _).2 rfl).2.2, (onPointerUp_spec _).1 rfl⟩

/-- Claim C10: `onPointerDown` has no active-stroke guard: received while
a stroke is already active it still re-anchors both origins to the new
event, appends exactly one un-tweened (rounded, scaled) origin point to
the paint queue, records it as `lastPoint`, and fires the stroke-start
hook again — with no stroke-end hook and no reveal test in its effect
trace. -/
theorem onPointerDown_no_guard :
    ∀ (st : StrokeState) (ev : PointerEventData), st.isPointerDown = true →
      (onPointerDown ev st).1.pointerOrigin = ev.client
      ∧ (onPointerDown ev st).1.offsetOrigin = ev.offset
      ∧ (onPointerDown ev st).1.isPointerDown = true
      ∧ (onPointerDown ev st).1.paintQueue
          = st.paintQueue
            ++ [{ x := jsRound (ev.offset.x * st.scale),
                  y := jsRound (ev.offset.y * st.scale) }]
      ∧ (onPointerDown ev st).1.lastPoint
          = some { x := jsRound (ev.offset.x * st.scale),
                   y := jsRound (ev.offset.y * st.scale) }
      ∧ (onPointerDown ev st).2 = [.cancelEvent, .fireDown] := by
  intro st ev _
  refine ⟨rfl, rfl, rfl, ?_, ?_, rfl⟩ <;>
    · cases hlp : st.lastPoint <;>
        simp [onPointerDown, addPoint, getOffsetPointFromEvent, hlp]

/-- Witness for `onPointerDown_no_guard` at a Stroking state. -/
theorem onPointerDown_no_guard_witness :
    (onPointerDown ⟨⟨5, 6⟩, ⟨7, 8⟩⟩ ⟨true, ⟨1, 2⟩, ⟨3, 4⟩, 1, 10, some ⟨3, 4⟩, [⟨3, 4⟩]⟩).2
      = [.cancelEvent, .fireDown] :=
  (onPointerDown_no_guard ⟨true, ⟨1, 2⟩, ⟨3, 4⟩, 1, 10, some ⟨3, 4⟩, [⟨3, 4⟩]⟩
    ⟨⟨5, 6⟩, ⟨7, 8⟩⟩ rfl).2.2.2.2.2

/-! Section: Render loop compositing (`draw`) and reveal-fraction monotonicity -/

/-- One brush stamp composited onto the overlay by `draw` under the
`destination-out` blend mode set once by `onCanvasLoaded`
(`overlayCtx.globalCompositeOperation = 'destination-out'`).  Alpha
values are idealized bytes in `[0, 255]`; Porter–Duff destination-out
leaves at each pixel the destination alpha scaled by `1 - srcAlpha`,
i.e. `dst * ((255 - src) / 255)`.  `stamp x y` is the effective source
alpha the positioned, resampled brush contributes at overlay pixel
`(x, y)` (zero outside the brush's extent). -/
def drawStamp (alpha : ℤ → ℤ → ℚ) (stamp : ℤ → ℤ → ℚ) : ℤ → ℤ → ℚ :=
  fun x y => alpha x y * ((255 - stamp x y) / 255)

/-- An engine operation as it affects the overlay surface after
initialization: either one brush stamp drawn by the render loop
(`draw` under destination-out is the only code that writes the
overlay), or any other operation (pointer handlers, resize, reveal
test), which never writes the overlay. -/
inductive EngineOp where
  | frameStamp (stamp : ℤ → ℤ → ℚ)
  | nonDrawing

/-- Effect of one engine operation on the overlay's alpha channel. -/
def applyOp (alpha : ℤ → ℤ → ℚ) : EngineOp → (ℤ → ℤ → ℚ)
  | .frameStamp stamp => drawStamp alpha stamp
  | .nonDrawing => alpha

/-- Effect of a sequence of engine operations on the overlay. -/
def applyOps (alpha : ℤ → ℤ → ℚ) : List EngineOp → (ℤ → ℤ → ℚ)
  | [] => alpha
  | op :: rest => applyOps (applyOp alpha op) rest

/-- The overlay's pixel coordinates in the row-major order
`getImageData` returns them. -/
def pixelCoords (w h : ℕ) : List (ℤ × ℤ) :=
  (List.range h).flatMap fun y => (List.range w).map fun x => ((x : ℤ), (y : ℤ))

/-- The overlay's alpha values as the pixel list `testRevealed` reads. -/
def overlayAlphas (w h : ℕ) (alpha : ℤ → ℤ → ℚ) : List ℚ :=
  (pixelCoords w h).map fun c => alpha c.1 c.2

/-- The revealed fraction the Reveal Detector computes on a `w × h`
overlay: `numVisible / totalPixels * 100`. -/
def revealedFraction (w h : ℕ) (alpha : ℤ → ℤ → ℚ) : ℚ :=
  (numVisible (overlayAlphas w h alpha) : ℚ) / ((overlayAlphas w h alpha).length : ℚ) * 100

/-- A stamp's source alpha is a byte value. -/
def ValidStamp (stamp : ℤ → ℤ → ℚ) : Prop :=
  ∀ x y, 0 ≤ stamp x y ∧ stamp x y ≤ 255

theorem applyOps_le (alpha : ℤ → ℤ → ℚ) (ops : List EngineOp)
    (hα : ∀ x y, 0 ≤ alpha x y)
    (hops : ∀ op ∈ ops, ∀ stamp, op = EngineOp.frameStamp stamp → ValidStamp stamp) :
    ∀ x y, 0 ≤ applyOps alpha ops x y ∧ applyOps alpha ops x y ≤ alpha x y := by
  induction ops generalizing alpha with
  | nil => exact fun x y => ⟨hα x y, le_refl _⟩
  | cons op rest ih =>
    intro x y
    cases op with
    | nonDrawing =>
      exact ih alpha hα (fun o ho s hs => hops o (by simp [ho]) s hs) x y
    | frameStamp stamp =>
      have hst : ValidStamp stamp := hops _ (by simp) stamp rfl
      have hα2 : ∀ x y, 0 ≤ drawStamp alpha stamp x y := by
        intro x y
        unfold drawStamp
        have h1 := (hst x y).1
        have h2 := (hst x y).2
        apply mul_nonneg (hα x y)
        apply div_nonneg _ (by norm_num : (0:ℚ) ≤ 255)
        linarith
      have hle : ∀ x y, drawStamp alpha stamp x y ≤ alpha x y := by
        intro x y
        unfold drawStamp
        have h1 := (hst x y).1
        have h2 := (hst x y).2
        have h3 := hα x y
        nlinarith
      have hrec := ih (drawStamp alpha stamp)
        hα2 (fun o ho s hs => hops o (by simp [ho]) s hs) x y
      exact ⟨by simpa [applyOps, applyOp] using hrec.1,
        by
          have := hrec.2
          simp only [applyOps, applyOp]
          exact le_trans this (hle x y)⟩

theorem numVisible_mono (w h : ℕ) (a b : ℤ → ℤ → ℚ)
    (hab : ∀ x y, b x y ≤ a x y) :
    numVisible (overlayAlphas w h a) ≤ numVisible (overlayAlphas w h b) := by
  unfold numVisible overlayAlphas
  rw [← List.countP_eq_length_filter, ← List.countP_eq_length_filter,
    List.countP_map, List.countP_map]
  apply List.countP_mono_left
  intro c _ hc
  simp only [Function.comp_apply, decide_eq_true_eq] at hc ⊢
  exact le_trans (hab c.1 c.2) hc

/-- Claim C8: after initialization, every engine operation either leaves
the overlay's alpha channel unchanged or decreases it — the render
loop's destination-out stamps only scale each pixel's alpha by a factor
in `[0, 1]`, and nothing else writes the overlay — so across any
sequence of operations the revealed fraction computed by the Reveal
Detector is non-decreasing. -/
theorem revealedFraction_monotone (w h : ℕ) (alpha : ℤ → ℤ → ℚ) (ops : List EngineOp)
    (hα : ∀ x y, 0 ≤ alpha x y)
    (hops : ∀ op ∈ ops, ∀ stamp, op = EngineOp.frameStamp stamp → ValidStamp stamp) :
    (∀ x y, applyOps alpha ops x y ≤ alpha x y)
    ∧ revealedFraction w h alpha ≤ revealedFraction w h (applyOps alpha ops) := by
  have hle := applyOps_le alpha ops hα hops
  refine ⟨fun x y => (hle x y).2, ?_⟩
  unfold revealedFraction
  have hlen : ((overlayAlphas w h (applyOps alpha ops)).length : ℚ)
      = ((overlayAlphas w h alpha).length : ℚ) := by
    unfold overlayAlphas
    simp
  rw [hlen]
  rcases Nat.eq_zero_or_pos (overlayAlphas w h alpha).length with hz | hpos
  · rw [hz]
    simp
  · have hLQ : (0 : ℚ) < ((overlayAlphas w h alpha).length : ℚ) := by exact_mod_cast hpos
    have hmono := numVisible_mono w h alpha (applyOps alpha ops) (fun x y => (hle x y).2)
    have hmonoQ : ((numVisible (overlayAlphas w h alpha)) : ℚ)
        ≤ ((numVisible (overlayAlphas w h (applyOps alpha ops))) : ℚ) := by
      exact_mod_cast hmono
    have h100 : (0 : ℚ) ≤ 100 := by norm_num
    apply mul_le_mul_of_nonneg_right _ h100
    exact (div_le_div_right hLQ).mpr hmonoQ

/-- Witness for `revealedFraction_monotone`: a single fully opaque
pixel erased by one full-alpha stamp. -/
theorem revealedFraction_monotone_witness :
    (∀ x y : ℤ,
        applyOps (fun _ _ => 255) [EngineOp.frameStamp (fun _ _ => 255)] x y
          ≤ (fun _ _ => (255 : ℚ)) x y)
    ∧ revealedFraction 1 1 (fun _ _ => 255)
        ≤ revealedFraction 1 1
            (applyOps (fun _ _ => 255) [EngineOp.frameStamp (fun _ _ => 255)]) :=
  revealedFraction_monotone 1 1 (fun _ _ => 255)
    [EngineOp.frameStamp (fun _ _ => 255)]
    (fun _ _ => by norm_num)
    (fun op hop stamp hs => by
      simp at hop
      subst hop
      simp only [EngineOp.frameStamp.injEq] at hs
      subst hs
      exact fun x y => ⟨by norm_num, by norm_num⟩)

end ScratchIt
